import Mathlib

/-
Shallow embedding of the lease Expiration Manager (Go package `vault`,
file modelled here as `expiration.go`) together with proofs about the
behaviour of its operations.

Modelling conventions:
* Durations and UTC instants are integers (seconds).  Go's `time.Time`
  zero value is `0`, `IsZero` is `= 0`, `Before` is `<`, `Sub` is
  subtraction and `Add` is addition.
* The storage view is a pure association list from keys to lease
  entries; `Get`/`Put`/`Delete` never fail in the model (the Go error
  paths for storage failures and decode failures are unreachable here).
* The router and the token store are oracles supplied by an `Env`;
  their answers may depend on a global dispatch counter that the state
  threads, so transient failures ("fail three times then succeed") are
  representable.
* Externally observable actions (router calls, token-store calls,
  storage writes and deletes, entry into `Revoke`, backoff sleeps) are
  recorded in ghost trace fields of the state; the traces are pure
  instrumentation and influence no behaviour.
-/

namespace Vault

/-- Durations, in seconds.  The Go source uses `time.Duration`; the
constants below are the source's values expressed in seconds. -/
abbrev Duration := Int

/-- UTC instants, in seconds since the zero instant. -/
abbrev Time := Int

/-- Source constant `maxRevokeAttempts`: limits how many revoke attempts are made. -/
def maxRevokeAttempts : Nat := 6

/-- Source constant `revokeRetryBase`: a baseline retry time (10 seconds). -/
def revokeRetryBase : Duration := 10

/-- Source constant `minRevokeDelay`: used to prevent an instant revoke on restore (5 seconds). -/
def minRevokeDelay : Duration := 5

/-- JSON values, the target of the lease-entry codec.  The Go source
serializes with `encoding/json`; the model works at the level of the
JSON document tree (field-named objects), which is the self-describing
textual form the spec describes. -/
inductive Json where
  | null : Json
  | bool : Bool → Json
  | num : Int → Json
  | str : String → Json
  | arr : List Json → Json
  | obj : List (String × Json) → Json

/-- Opaque `data` mapping carried in requests, responses and lease
entries (Go `map[string]interface{}`, modelled as a JSON object body). -/
abbrev LeaseData := List (String × Json)

/-- Modelled from the spec: the external `logical.Secret` descriptor
(its definition lives outside the given sources).  Only the fields the
manager reads and writes are modelled: the lease duration, the grace
period, the renew increment, and the identifier slot the manager fills
with the lease id. -/
structure Secret where
  lease : Duration
  leaseGracePeriod : Duration
  leaseIncrement : Duration
  vaultID : String

/-- Source type `leaseEntry`: the unit of persisted state. -/
structure leaseEntry where
  vaultID : String
  loginToken : String
  path : String
  data : LeaseData
  secret : Option Secret
  issueTime : Time
  expireTime : Time

/-- Modelled from the spec: the two request shapes submitted to the
router (`logical.Request` with a revoke or renew operation). -/
inductive Operation where
  | revoke : Operation
  | renew : Operation

/-- Modelled from the spec: a router request bound to a path, a secret
and the opaque data mapping. -/
structure Request where
  op : Operation
  path : String
  secret : Option Secret
  data : LeaseData

/-- Modelled from the spec: a backend response: an optional secret and
an opaque data mapping. -/
structure Response where
  secret : Option Secret
  data : LeaseData

/-- Source helper `logical.RevokeRequest path secret data`. -/
def RevokeRequest (p : String) (sec : Option Secret) (d : LeaseData) : Request :=
  ⟨Operation.revoke, p, sec, d⟩

/-- Source helper `logical.RenewRequest path secret data`. -/
def RenewRequest (p : String) (sec : Option Secret) (d : LeaseData) : Request :=
  ⟨Operation.renew, p, sec, d⟩

/-- Ghost trace events: externally observable actions of the manager. -/
inductive Event where
  | routeCall : Request → Event
  | tokenRevoke : String → Event
  | revokeCall : String → Event
  | storePut : String → Event
  | storeDelete : String → Event

/-- Environment: the external collaborators.  `route` and `revokeTree`
may answer differently on successive dispatches (indexed by the state's
dispatch counter); `validate` is the secret's deterministic self-check,
`uuid` the next value of `generateUUID`. -/
structure Env where
  route : Nat → Request → Except String (Option Response)
  revokeTree : Nat → String → Except String Unit
  validate : Secret → Except String Unit
  uuid : String

/-- Manager state: the durable store (association list keyed by lease
id), the volatile pending-timer table (lease id to the armed duration),
the current time, the dispatch counter, and the ghost traces. -/
structure MState where
  store : List (String × leaseEntry)
  pending : List (String × Duration)
  now : Time
  calls : Nat
  events : List Event
  sleeps : List Duration

/-- First-match association lookup (Go map read / storage `Get`). -/
def alookup {α : Type} (k : String) : List (String × α) → Option α
  | [] => none
  | (k', v) :: rest => if k' = k then some v else alookup k rest

/-- Remove every binding of a key (Go map `delete` / storage `Delete`). -/
def aerase {α : Type} (k : String) (l : List (String × α)) : List (String × α) :=
  l.filter (fun kv => kv.1 ≠ k)

/-- Overwrite the binding of a key (Go map write / storage `Put`). -/
def ainsert {α : Type} (k : String) (v : α) (l : List (String × α)) : List (String × α) :=
  (k, v) :: aerase k l

@[simp] theorem alookup_nil {α : Type} (k : String) : alookup (α := α) k [] = none := rfl

theorem alookup_cons {α : Type} (k k' : String) (v : α) (l : List (String × α)) :
    alookup k ((k', v) :: l) = if k' = k then some v else alookup k l := rfl

@[simp] theorem alookup_aerase_self {α : Type} (k : String) (l : List (String × α)) :
    alookup k (aerase k l) = none := by
  induction l with
  | nil => rfl
  | cons kv rest ih =>
    obtain ⟨k', v⟩ := kv
    by_cases h : k' = k
    · simpa [aerase, List.filter_cons, h] using ih
    · simpa [aerase, List.filter_cons, h, alookup_cons] using ih

@[simp] theorem alookup_aerase_ne {α : Type} (k k' : String) (l : List (String × α))
    (h : k' ≠ k) : alookup k (aerase k' l) = alookup k l := by
  induction l with
  | nil => rfl
  | cons kv rest ih =>
    obtain ⟨k₀, v⟩ := kv
    by_cases h0 : k₀ = k'
    · subst h0
      simpa [aerase, List.filter_cons, alookup_cons, h] using ih
    · by_cases h1 : k₀ = k
      · simp [aerase, List.filter_cons, h0, alookup_cons, h1, Ne.symm h]
      · simpa [aerase, List.filter_cons, h0, alookup_cons, h1] using ih

@[simp] theorem alookup_ainsert_self {α : Type} (k : String) (v : α) (l : List (String × α)) :
    alookup k (ainsert k v l) = some v := by
  simp [ainsert, alookup_cons]

@[simp] theorem alookup_ainsert_ne {α : Type} (k k' : String) (v : α) (l : List (String × α))
    (h : k' ≠ k) : alookup k (ainsert k' v l) = alookup k l := by
  simp [ainsert, alookup_cons, h, alookup_aerase_ne k k' l h]

/-- JSON object field access with Go `encoding/json` defaulting: an
absent field decodes as the zero value, represented by `null`. -/
def jGet (fs : List (String × Json)) (k : String) : Json :=
  match alookup k fs with
  | some v => v
  | none => Json.null

/-- Decode a JSON string (Go: `null`/absent leaves the zero value). -/
def jStr : Json → Option String
  | Json.str s => some s
  | Json.null => some ""
  | _ => none

/-- Decode a JSON integer (Go: `null`/absent leaves the zero value). -/
def jInt : Json → Option Int
  | Json.num n => some n
  | Json.null => some 0
  | _ => none

/-- Decode a JSON object body (Go: `null`/absent leaves the zero map). -/
def jObj : Json → Option (List (String × Json))
  | Json.obj fs => some fs
  | Json.null => some []
  | _ => none

/-- Modelled from the spec: JSON encoding of the external secret
descriptor (field-named object, declaration order). -/
def encodeSecret (s : Secret) : Json :=
  Json.obj [("lease", Json.num s.lease),
            ("lease_grace_period", Json.num s.leaseGracePeriod),
            ("lease_increment", Json.num s.leaseIncrement),
            ("vault_id", Json.str s.vaultID)]

/-- Modelled from the spec: JSON decoding of the external secret descriptor. -/
def decodeSecret (j : Json) : Option Secret :=
  match j with
  | Json.obj fs => do
    let l ← jInt (jGet fs "lease")
    let g ← jInt (jGet fs "lease_grace_period")
    let i ← jInt (jGet fs "lease_increment")
    let vid ← jStr (jGet fs "vault_id")
    some ⟨l, g, i, vid⟩
  | _ => none

/-- A nil secret pointer encodes as `null`. -/
def encodeSecretOpt : Option Secret → Json
  | none => Json.null
  | some s => encodeSecret s

/-- `null` decodes back to the nil secret pointer. -/
def decodeSecretOpt : Json → Option (Option Secret)
  | Json.null => some none
  | j => (decodeSecret j).map some

/-- Source method `leaseEntry.encode`: JSON-encode the lease entry
(field-named object mirroring the struct tags `vault_id`,
`login_token`, `path`, `data`, `secret`, `issue_time`, `expire_time`). -/
def leaseEntry.encode (l : leaseEntry) : Json :=
  Json.obj [("vault_id", Json.str l.vaultID),
            ("login_token", Json.str l.loginToken),
            ("path", Json.str l.path),
            ("data", Json.obj l.data),
            ("secret", encodeSecretOpt l.secret),
            ("issue_time", Json.num l.issueTime),
            ("expire_time", Json.num l.expireTime)]

/-- Source function `decodeLeaseEntry`: reverse `encode` and return a
new entry (by-name field lookup with zero-value defaulting, as
`json.Unmarshal` does). -/
def decodeLeaseEntry (j : Json) : Option leaseEntry :=
  match j with
  | Json.obj fs => do
    let vid ← jStr (jGet fs "vault_id")
    let tok ← jStr (jGet fs "login_token")
    let p ← jStr (jGet fs "path")
    let d ← jObj (jGet fs "data")
    let sec ← decodeSecretOpt (jGet fs "secret")
    let it ← jInt (jGet fs "issue_time")
    let et ← jInt (jGet fs "expire_time")
    some ⟨vid, tok, p, d, sec, it, et⟩
  | _ => none

/-- C8: for every lease entry `e`, decoding the encoding of `e` yields
an entry equal to `e` — including the opaque data mapping, the secret
descriptor, and both timestamps. -/
theorem lease_entry_roundtrip (e : leaseEntry) :
    decodeLeaseEntry (leaseEntry.encode e) = some e := by
  obtain ⟨vid, tok, p, d, sec, it, et⟩ := e
  cases sec with
  | none => rfl
  | some s => rfl

/-- Source method `loadEntry`: read a lease entry from the view.  In
the model storage reads and decoding never fail, so the Go error
returns are unreachable and the result is just an optional entry. -/
def loadEntry (s : MState) (vaultID : String) : Option leaseEntry :=
  alookup vaultID s.store

/-- Source method `persistEntry`: encode the entry and write it to the
view at key `le.VaultID`. -/
def persistEntry (s : MState) (le : leaseEntry) : MState :=
  { s with store := ainsert le.vaultID le s.store,
           events := s.events ++ [Event.storePut le.vaultID] }

/-- Source method `deleteEntry`: delete the lease entry at the key. -/
def deleteEntry (s : MState) (vaultID : String) : MState :=
  { s with store := aerase vaultID s.store,
           events := s.events ++ [Event.storeDelete vaultID] }

/-- Source method `revokeEntry`: if the entry carries a login token,
revoke through the token store, bypassing the backend; otherwise route
a revoke request bound to the entry's path, secret and data through the
router, ignoring the response and keeping only the error. -/
def revokeEntry (env : Env) (s : MState) (le : leaseEntry) : Except String Unit × MState :=
  if le.loginToken ≠ "" then
    let s' := { s with calls := s.calls + 1,
                       events := s.events ++ [Event.tokenRevoke le.loginToken] }
    match env.revokeTree s.calls le.loginToken with
    | Except.error e => (Except.error ("failed to revoke token: " ++ e), s')
    | Except.ok _ => (Except.ok (), s')
  else
    let req := RevokeRequest le.path le.secret le.data
    let s' := { s with calls := s.calls + 1,
                       events := s.events ++ [Event.routeCall req] }
    match env.route s.calls req with
    | Except.error e => (Except.error ("failed to revoke entry: " ++ e), s')
    | Except.ok _ => (Except.ok (), s')

/-- The renew request `renewEntry` builds: a shallow copy of the stored
secret with the increment set and the identifier slot cleared, bound to
the entry's path and data.  The Go code dereferences `le.Secret` (a nil
pointer would panic); the model substitutes the zero secret in that
unreachable-by-contract case. -/
def renewReqOf (le : leaseEntry) (increment : Duration) : Request :=
  RenewRequest le.path
    (some { le.secret.getD ⟨0, 0, 0, ""⟩ with leaseIncrement := increment, vaultID := "" })
    le.data

/-- Source method `renewEntry`: build the renew request and dispatch it
through the router, surfacing any error. -/
def renewEntry (env : Env) (s : MState) (le : leaseEntry) (increment : Duration) :
    Except String (Option Response) × MState :=
  let req := renewReqOf le increment
  let s' := { s with calls := s.calls + 1,
                     events := s.events ++ [Event.routeCall req] }
  match env.route s.calls req with
  | Except.error e => (Except.error ("failed to renew entry: " ++ e), s')
  | Except.ok r => (Except.ok r, s')

/-- Source method `Revoke`: load the entry (absent means success),
dispatch revocation, and only on success delete the entry and then
stop and drop the pending timer.  The `revokeCall` ghost event records
each entry into this function. -/
def Revoke (env : Env) (s : MState) (vaultID : String) : Except String Unit × MState :=
  let s0 := { s with events := s.events ++ [Event.revokeCall vaultID] }
  match loadEntry s0 vaultID with
  | none => (Except.ok (), s0)
  | some le =>
    match revokeEntry env s0 le with
    | (Except.error e, s1) => (Except.error e, s1)
    | (Except.ok _, s1) =>
      let s2 := deleteEntry s1 vaultID
      (Except.ok (), { s2 with pending := aerase vaultID s2.pending })

/-- The error format of source method `RevokePrefix`:
`failed to revoke '<id>' (<ordinal> / <total>): <err>`. -/
def revokeFailMsg (vaultID : String) (ordinal total : Nat) (e : String) : String :=
  "failed to revoke '" ++ vaultID ++ "' (" ++ toString ordinal ++
    " / " ++ toString total ++ "): " ++ e

/-- The revoke-loop body of source method `RevokePrefix`: revoke each
listed key (the full id is the normalized prefix plus the listed
suffix), stopping at the first failure with an error naming the id, its
one-based ordinal, the scan size, and the underlying error. -/
def revokeKeysLoop (env : Env) (pref : String) (total : Nat) :
    MState → List String → Nat → Except String Unit × MState
  | s, [], _ => (Except.ok (), s)
  | s, suffix :: rest, idx =>
    let vaultID := pref ++ suffix
    match Revoke env s vaultID with
    | (Except.ok _, s') => revokeKeysLoop env pref total s' rest (idx + 1)
    | (Except.error e, s') =>
      (Except.error (revokeFailMsg vaultID (idx + 1) total e), s')

/-- Byte-level prefix test on keys (the model's form of the sub-view scope). -/
def strHasPref (pref k : String) : Bool :=
  pref.data.isPrefixOf k.data

/-- Strip a prefix from a key, yielding the sub-view-relative suffix. -/
def strDropPref (pref k : String) : String :=
  String.mk (k.data.drop pref.data.length)

/-- Modelled from the spec: `CollectKeys` over the sub-view scoped at
`pref` — every stored key under the prefix, relative to the prefix, in
unspecified (here: storage) order.  `CollectKeys` and `SubView` are
repository code outside the given sources; the spec describes them as
the recursive key scan of a scoped view. -/
def collectKeysUnder (store : List (String × leaseEntry)) (pref : String) : List String :=
  store.filterMap (fun kv => if strHasPref pref kv.1 then some (strDropPref pref kv.1) else none)

/-- Go `strings.HasSuffix p "/"` specialised to the slash check. -/
def endsSlash (p : String) : Bool :=
  p.data.getLast? = some '/'

/-- The prefix normalization of source method `RevokePrefix`. -/
def normSlash (p : String) : String :=
  if endsSlash p then p else p ++ "/"

/-- Source method `RevokePrefix`: normalize the prefix to end in a
slash, collect the keys under the prefix sub-view, and revoke each in
turn. -/
def RevokePrefixed (env : Env) (s : MState) (p : String) : Except String Unit × MState :=
  let pref := normSlash p
  let existing := collectKeysUnder s.store pref
  revokeKeysLoop env pref existing.length s existing 0

/-- Source method `Renew`: load (not-found error if absent), reject
expired leases, dispatch renew, pass through declined renewals, else
validate, stamp the id, recompute the expiry, persist, and reset the
pending timer only if one exists. -/
def Renew (env : Env) (s : MState) (vaultID : String) (increment : Duration) :
    Except String (Option Response) × MState :=
  match loadEntry s vaultID with
  | none => (Except.error "lease not found", s)
  | some le =>
    if le.expireTime < s.now then (Except.error "lease expired", s)
    else
      match renewEntry env s le increment with
      | (Except.error e, s1) => (Except.error e, s1)
      | (Except.ok resp, s1) =>
        match resp with
        | none => (Except.ok none, s1)
        | some r =>
          match r.secret with
          | none => (Except.ok (some r), s1)
          | some sec =>
            if sec.lease = 0 then (Except.ok (some r), s1)
            else
              match env.validate sec with
              | Except.error e => (Except.error e, s1)
              | Except.ok _ =>
                let sec' : Secret := { sec with vaultID := vaultID }
                let leaseTotal := sec'.lease + sec'.leaseGracePeriod
                let expireTime : Time := if sec'.lease > 0 then s.now + leaseTotal else 0
                let le' : leaseEntry :=
                  { le with data := r.data, secret := some sec', expireTime := expireTime }
                let s2 := persistEntry s1 le'
                let pend' := if (alookup vaultID s2.pending).isSome
                  then ainsert vaultID leaseTotal s2.pending else s2.pending
                let s3 := { s2 with pending := pend' }
                (Except.ok (some { r with secret := some sec' }), s3)

/-- Split a character list on `'/'`, keeping empty segments (the
segment view of a path that Go `path.Clean` operates on). -/
def splitSeg : List Char → List (List Char)
  | [] => [[]]
  | c :: rest =>
    match splitSeg rest with
    | [] => [[]]
    | seg :: segs => if c = '/' then [] :: seg :: segs else (c :: seg) :: segs

/-- One segment of Go `path.Clean`'s left-to-right pass, acting on the
stack of output segments (innermost first): drop empty and `.`
segments; on `..` pop a poppable segment, or drop it at the root of a
rooted path, or keep it leading a relative path; push anything else. -/
def cleanStep (rooted : Bool) (stack : List (List Char)) (seg : List Char) : List (List Char) :=
  if seg = [] ∨ seg = ['.'] then stack
  else if seg = ['.', '.'] then
    match stack with
    | [] => if rooted then [] else [seg]
    | top :: rest => if top = ['.', '.'] then seg :: top :: rest else rest
  else seg :: stack

/-- Join segments back with `'/'` separators. -/
def joinSegs : List (List Char) → List Char
  | [] => []
  | [seg] => seg
  | seg :: segs => seg ++ '/' :: joinSegs segs

/-- Go stdlib `path.Clean` on a non-empty character list, in the
standard segment formulation: resolve `.` and `..` lexically, squeeze
repeated slashes, and render `.` (or `/` when rooted) for an empty
result. -/
def cleanChars (cs : List Char) : List Char :=
  let rooted := cs.head? == some '/'
  let stack := (splitSeg cs).foldl (cleanStep rooted) []
  if stack = [] then (if rooted then ['/'] else ['.'])
  else if rooted then '/' :: joinSegs stack.reverse
  else joinSegs stack.reverse

/-- Go stdlib `path.Clean`. -/
def pathClean (s : String) : String :=
  if s.data = [] then "." else String.mk (cleanChars s.data)

/-- Go stdlib `path.Join` on two elements, as called by `Register`:
skip leading empty elements, then clean the slash-join of the rest. -/
def pathJoin (a b : String) : String :=
  if a ≠ "" then pathClean (a ++ "/" ++ b)
  else if b ≠ "" then pathClean b
  else ""

/-- Source method `Register`: ignore responses without a leased secret,
validate, mint the id as `path.Join(req.Path, generateUUID())`, build
the entry, persist it, and arm a timer for the lease total when the
expiry is non-zero. -/
def Register (env : Env) (s : MState)
    (req : Request) (resp : Option Response) : Except String String × MState :=
  match resp with
  | none => (Except.ok "", s)
  | some r =>
    match r.secret with
    | none => (Except.ok "", s)
    | some sec =>
      if sec.lease = 0 then (Except.ok "", s)
      else
        match env.validate sec with
        | Except.error e => (Except.error e, s)
        | Except.ok _ =>
          let now := s.now
          let leaseTotal := sec.lease + sec.leaseGracePeriod
          let expireTime : Time := if sec.lease > 0 then now + leaseTotal else 0
          let le : leaseEntry :=
            { vaultID := pathJoin req.path env.uuid,
              loginToken := "",
              path := req.path,
              data := r.data,
              secret := some sec,
              issueTime := now,
              expireTime := expireTime }
          let s1 := persistEntry s le
          let s2 := if expireTime ≠ 0
                    then { s1 with pending := ainsert le.vaultID leaseTotal s1.pending }
                    else s1
          (Except.ok le.vaultID, s2)

/-- Source method `expireID`'s bounded retry loop, parametrized by the
remaining attempt budget and the current attempt index.  On failure it
sleeps `(1 <<< attempt) * revokeRetryBase` and retries; the returned
flag tells whether a revoke succeeded (the Go code logs success or
max-attempts-reached accordingly). -/
def expireLoop (env : Env) (vaultID : String) :
    Nat → Nat → MState → Bool × MState
  | 0, _, s => (false, s)
  | remaining + 1, attempt, s =>
    match Revoke env s vaultID with
    | (Except.ok _, s') => (true, s')
    | (Except.error _, s') =>
      let s'' := { s' with sleeps := s'.sleeps ++ [(2 : Int) ^ attempt * revokeRetryBase] }
      expireLoop env vaultID remaining (attempt + 1) s''

/-- Source method `expireID`: first clear the id from the pending
table, then run the bounded retry loop of `maxRevokeAttempts`. -/
def expireID (env : Env) (s : MState) (vaultID : String) : Bool × MState :=
  expireLoop env vaultID maxRevokeAttempts 0
    { s with pending := aerase vaultID s.pending }

/-- One key of source method `Restore`: load the entry, skip missing
entries and zero expiry times, otherwise arm a timer for the remaining
time, clamped up to `minRevokeDelay` when not positive. -/
def restoreStep (now : Time) (store : List (String × leaseEntry))
    (pend : List (String × Duration)) (key : String) : List (String × Duration) :=
  match alookup key store with
  | none => pend
  | some le =>
    if le.expireTime = 0 then pend
    else
      let expires := le.expireTime - now
      let expires := if expires ≤ 0 then minRevokeDelay else expires
      ainsert le.vaultID expires pend

/-- Source method `Restore`: collect every key of the manager's view
and re-arm timers over the existing entries.  In the model the key scan
and entry loads cannot fail, so the Go error returns are unreachable
and restore succeeds. -/
def Restore (s : MState) : Except String Unit × MState :=
  let existing := s.store.map (fun kv => kv.1)
  (Except.ok (), { s with pending := existing.foldl (restoreStep s.now s.store) s.pending })

/-- The dispatch selected by `revokeEntry` for an entry, as a trace event. -/
def dispatchOf (le : leaseEntry) : Event :=
  if le.loginToken ≠ "" then Event.tokenRevoke le.loginToken
  else Event.routeCall (RevokeRequest le.path le.secret le.data)

/-- The result `revokeEntry` produces for an entry when the dispatch
counter reads `n`. -/
def dispatchResult (env : Env) (n : Nat) (le : leaseEntry) : Except String Unit :=
  if le.loginToken ≠ "" then
    match env.revokeTree n le.loginToken with
    | Except.error e => Except.error ("failed to revoke token: " ++ e)
    | Except.ok _ => Except.ok ()
  else
    match env.route n (RevokeRequest le.path le.secret le.data) with
    | Except.error e => Except.error ("failed to revoke entry: " ++ e)
    | Except.ok _ => Except.ok ()

theorem revokeEntry_eq (env : Env) (s : MState) (le : leaseEntry) :
    revokeEntry env s le =
      (dispatchResult env s.calls le,
       { s with calls := s.calls + 1, events := s.events ++ [dispatchOf le] }) := by
  unfold revokeEntry dispatchResult dispatchOf
  by_cases h : le.loginToken ≠ ""
  · simp only [if_pos h]
    cases env.revokeTree s.calls le.loginToken <;> rfl
  · simp only [if_neg h]
    cases env.route s.calls (RevokeRequest le.path le.secret le.data) <;> rfl

theorem revoke_absent (env : Env) (s : MState) (id : String)
    (h : alookup id s.store = none) :
    Revoke env s id = (Except.ok (), { s with events := s.events ++ [Event.revokeCall id] }) := by
  unfold Revoke loadEntry
  simp only [h]

theorem revoke_present (env : Env) (s : MState) (id : String) (le : leaseEntry)
    (h : alookup id s.store = some le) :
    Revoke env s id =
      match dispatchResult env s.calls le with
      | Except.error e =>
        (Except.error e,
         { s with calls := s.calls + 1,
                  events := s.events ++ [Event.revokeCall id, dispatchOf le] })
      | Except.ok _ =>
        (Except.ok (),
         { s with store := aerase id s.store,
                  pending := aerase id s.pending,
                  calls := s.calls + 1,
                  events := s.events ++
                    [Event.revokeCall id, dispatchOf le, Event.storeDelete id] }) := by
  unfold Revoke loadEntry
  simp only [h, revokeEntry_eq]
  cases hd : dispatchResult env s.calls le with
  | error e => simp [deleteEntry]
  | ok u => cases u; simp [deleteEntry]

theorem revoke_store_none_preserved (env : Env) (s : MState) (id k : String)
    (h : alookup k s.store = none) :
    alookup k (Revoke env s id).2.store = none := by
  cases hle : alookup id s.store with
  | none => rw [revoke_absent env s id hle]; exact h
  | some le =>
    rw [revoke_present env s id le hle]
    cases hd : dispatchResult env s.calls le with
    | error e => exact h
    | ok u =>
      cases u
      by_cases hk : id = k
      · subst hk; simp
      · simpa [hk] using h

theorem revoke_ok_none (env : Env) (s : MState) (id : String)
    (h : (Revoke env s id).1 = Except.ok ()) :
    alookup id (Revoke env s id).2.store = none := by
  cases hle : alookup id s.store with
  | none => rw [revoke_absent env s id hle]; exact hle
  | some le =>
    rw [revoke_present env s id le hle]
    cases hd : dispatchResult env s.calls le with
    | error e =>
      rw [revoke_present env s id le hle, hd] at h
      exact absurd h (by simp)
    | ok u => cases u; simp

theorem revoke_error_state (env : Env) (s : MState) (id : String) (e : String)
    (h : (Revoke env s id).1 = Except.error e) :
    (Revoke env s id).2.store = s.store ∧ (Revoke env s id).2.pending = s.pending ∧
    (Revoke env s id).2.sleeps = s.sleeps := by
  cases hle : alookup id s.store with
  | none =>
    rw [revoke_absent env s id hle] at h ⊢
    exact absurd h (by simp)
  | some le =>
    rw [revoke_present env s id le hle] at h ⊢
    cases hd : dispatchResult env s.calls le with
    | error e' => exact ⟨rfl, rfl, rfl⟩
    | ok u =>
      cases u
      rw [hd] at h
      exact absurd h (by simp)

theorem revoke_sleeps (env : Env) (s : MState) (id : String) :
    (Revoke env s id).2.sleeps = s.sleeps := by
  cases hle : alookup id s.store with
  | none => rw [revoke_absent env s id hle]
  | some le =>
    rw [revoke_present env s id le hle]
    cases hd : dispatchResult env s.calls le with
    | error e => rfl
    | ok u => cases u; rfl

/-- C1: for every lease id with a stored entry, `Revoke` dispatches the
revocation to the backend before deleting the entry from storage (in
the success trace the dispatch event strictly precedes the delete
event); if the dispatch returns an error, `Revoke` propagates exactly
that error and leaves the stored entry, the pending timer (and the
whole state apart from the dispatch trace) unchanged. -/
theorem revoke_dispatch_before_delete (env : Env) (s : MState) (id : String) (le : leaseEntry)
    (h : alookup id s.store = some le) :
    (∀ e, dispatchResult env s.calls le = Except.error e →
        Revoke env s id =
          (Except.error e,
           { s with calls := s.calls + 1,
                    events := s.events ++ [Event.revokeCall id, dispatchOf le] }))
    ∧ (dispatchResult env s.calls le = Except.ok () →
        (Revoke env s id).2.events =
          s.events ++ [Event.revokeCall id, dispatchOf le, Event.storeDelete id]) := by
  constructor
  · intro e he
    rw [revoke_present env s id le h, he]
  · intro hok
    rw [revoke_present env s id le h, hok]

/-- Sample lease entry: a backend lease under mount path `aws`. -/
def leW : leaseEntry :=
  { vaultID := "aws/u1", loginToken := "", path := "aws",
    data := [], secret := some ⟨60, 0, 0, ""⟩, issueTime := 0, expireTime := 60 }

/-- Environment whose router and token store always fail. -/
def envFail : Env :=
  { route := fun _ _ => Except.error "backend down",
    revokeTree := fun _ _ => Except.error "token store down",
    validate := fun _ => Except.ok (), uuid := "u1" }

/-- Environment whose router and token store always succeed. -/
def envOk : Env :=
  { route := fun _ _ => Except.ok none,
    revokeTree := fun _ _ => Except.ok (),
    validate := fun _ => Except.ok (), uuid := "u1" }

/-- A state holding the sample lease and its pending timer. -/
def sW : MState :=
  { store := [("aws/u1", leW)], pending := [("aws/u1", 60)],
    now := 5, calls := 0, events := [], sleeps := [] }

/-- Witness for C1 at a concrete input: a failing backend makes
`Revoke` return the dispatch error and leave store and timer as they
were. -/
theorem revoke_dispatch_before_delete_witness :
    Revoke envFail sW "aws/u1" =
      (Except.error "failed to revoke entry: backend down",
       { sW with calls := 1,
                 events := [Event.revokeCall "aws/u1", dispatchOf leW] }) :=
  (revoke_dispatch_before_delete envFail sW "aws/u1" leW rfl).1
    "failed to revoke entry: backend down" rfl

theorem register_ok_shape (env : Env) (s : MState) (req : Request) (resp : Option Response)
    (id : String) (s1 : MState)
    (h : Register env s req resp = (Except.ok id, s1)) (hne : id ≠ "") :
    ∃ le : leaseEntry, le.vaultID = id ∧ id = pathJoin req.path env.uuid ∧
      s1.store = ainsert id le s.store := by
  cases resp with
  | none =>
    simp only [Register, Prod.mk.injEq, Except.ok.injEq] at h
    exact absurd h.1.symm hne
  | some r =>
    cases hsec : r.secret with
    | none =>
      simp only [Register, hsec, Prod.mk.injEq, Except.ok.injEq] at h
      exact absurd h.1.symm hne
    | some sec =>
      by_cases hl : sec.lease = 0
      · simp only [Register, hsec, if_pos hl, Prod.mk.injEq, Except.ok.injEq] at h
        exact absurd h.1.symm hne
      · cases hv : env.validate sec with
        | error e =>
          simp only [Register, hsec, if_neg hl, hv, Prod.mk.injEq] at h
          exact absurd h.1 (by simp)
        | ok u =>
          cases u
          simp only [Register, hsec, if_neg hl, hv, persistEntry,
            Prod.mk.injEq, Except.ok.injEq] at h
          obtain ⟨h1, h2⟩ := h
          refine ⟨{ vaultID := pathJoin req.path env.uuid, loginToken := "",
                    path := req.path, data := r.data, secret := some sec,
                    issueTime := s.now,
                    expireTime := if sec.lease > 0
                      then s.now + (sec.lease + sec.leaseGracePeriod) else 0 },
                  h1, h1.symm, ?_⟩
          rw [← h2, ← h1]
          split <;> split <;> rfl

/-- C2: `Revoke` is idempotent.  For an id with no stored entry it
succeeds without dispatching (no router, token-store, write or delete
event) and leaves store and pending table untouched; and after any
successful `Register` whose returned id is non-empty, a successful
`Revoke` of that id leaves no entry at that key, and a second
sequential `Revoke` of the same id also succeeds as a pure no-op. -/
theorem revoke_idempotent :
    (∀ (env : Env) (s : MState) (id : String), alookup id s.store = none →
        Revoke env s id =
          (Except.ok (), { s with events := s.events ++ [Event.revokeCall id] }))
    ∧ (∀ (env env' env'' : Env) (s s1 : MState) (req : Request) (resp : Option Response)
          (id : String),
        Register env s req resp = (Except.ok id, s1) → id ≠ "" →
        (Revoke env' s1 id).1 = Except.ok () →
        alookup id (Revoke env' s1 id).2.store = none ∧
        Revoke env'' (Revoke env' s1 id).2 id =
          (Except.ok (), { (Revoke env' s1 id).2 with
            events := (Revoke env' s1 id).2.events ++ [Event.revokeCall id] })) := by
  constructor
  · intro env s id h
    exact revoke_absent env s id h
  · intro env env' env'' s s1 req resp id hreg hne hok
    have hgone : alookup id (Revoke env' s1 id).2.store = none :=
      revoke_ok_none env' s1 id hok
    exact ⟨hgone, revoke_absent env'' (Revoke env' s1 id).2 id hgone⟩

/-- Request and response used to register the sample lease. -/
def reqW : Request := { op := Operation.renew, path := "aws", secret := none, data := [] }

/-- Response carrying a one-minute leased secret. -/
def respW : Response := { secret := some ⟨60, 0, 0, ""⟩, data := [] }

/-- The empty initial state. -/
def s0W : MState :=
  { store := [], pending := [], now := 5, calls := 0, events := [], sleeps := [] }

/-- Witness for C2 at a concrete input: register a lease, revoke it
twice; the entry is gone after the first revoke and the second revoke
is a successful no-op. -/
theorem revoke_idempotent_witness :
    alookup "aws/u1" (Revoke envOk (Register envOk s0W reqW (some respW)).2 "aws/u1").2.store
        = none ∧
    Revoke envOk (Revoke envOk (Register envOk s0W reqW (some respW)).2 "aws/u1").2 "aws/u1" =
      (Except.ok (),
       { (Revoke envOk (Register envOk s0W reqW (some respW)).2 "aws/u1").2 with
         events := (Revoke envOk (Register envOk s0W reqW (some respW)).2 "aws/u1").2.events
           ++ [Event.revokeCall "aws/u1"] }) :=
  revoke_idempotent.2 envOk envOk envOk s0W (Register envOk s0W reqW (some respW)).2
    reqW (some respW) "aws/u1" rfl (by decide) rfl

/-- Does an event record an entry into `Revoke`? -/
def isRevokeCall : Event → Bool
  | Event.revokeCall _ => true
  | _ => false

/-- Number of `Revoke` invocations recorded in a trace. -/
def countRC (evs : List Event) : Nat := (evs.filter isRevokeCall).length

theorem countRC_append (a b : List Event) : countRC (a ++ b) = countRC a + countRC b := by
  simp [countRC, List.filter_append]

theorem countRC_dispatch_cons (le : leaseEntry) (l : List Event) :
    countRC (dispatchOf le :: l) = countRC l := by
  unfold dispatchOf
  split <;> rfl

theorem countRC_cons_true (id : String) (l : List Event) :
    countRC (Event.revokeCall id :: l) = countRC l + 1 := by
  simp [countRC, List.filter_cons, isRevokeCall]

theorem revoke_countRC (env : Env) (s : MState) (id : String) :
    countRC (Revoke env s id).2.events = countRC s.events + 1 := by
  cases hle : alookup id s.store with
  | none =>
    rw [revoke_absent env s id hle]
    show countRC (s.events ++ [Event.revokeCall id]) = countRC s.events + 1
    rw [countRC_append, countRC_cons_true]
    rfl
  | some le =>
    rw [revoke_present env s id le hle]
    cases hd : dispatchResult env s.calls le with
    | error e =>
      show countRC (s.events ++ [Event.revokeCall id, dispatchOf le]) = countRC s.events + 1
      rw [countRC_append, countRC_cons_true, countRC_dispatch_cons]
      rfl
    | ok u =>
      cases u
      show countRC (s.events ++ [Event.revokeCall id, dispatchOf le, Event.storeDelete id])
          = countRC s.events + 1
      rw [countRC_append, countRC_cons_true, countRC_dispatch_cons]
      rfl

theorem expireLoop_trace (env : Env) (id : String) :
    ∀ (remaining attempt : Nat) (s : MState),
      ∃ j : Nat,
        ((expireLoop env id remaining attempt s).1 = true →
            1 ≤ j ∧ j ≤ remaining ∧
            countRC (expireLoop env id remaining attempt s).2.events = countRC s.events + j ∧
            (expireLoop env id remaining attempt s).2.sleeps =
              s.sleeps ++ (List.range (j - 1)).map
                (fun i => (2 : Int) ^ (attempt + i) * revokeRetryBase))
        ∧ ((expireLoop env id remaining attempt s).1 = false →
            j = remaining ∧
            countRC (expireLoop env id remaining attempt s).2.events = countRC s.events + j ∧
            (expireLoop env id remaining attempt s).2.sleeps =
              s.sleeps ++ (List.range j).map
                (fun i => (2 : Int) ^ (attempt + i) * revokeRetryBase) ∧
            (expireLoop env id remaining attempt s).2.store = s.store) := by
  intro remaining
  induction remaining with
  | zero =>
    intro attempt s
    refine ⟨0, ?_, ?_⟩
    · intro h
      exact absurd h (by simp [expireLoop])
    · intro _
      exact ⟨rfl, by simp [expireLoop], by simp [expireLoop], rfl⟩
  | succ n ih =>
    intro attempt s
    cases hrv : Revoke env s id with
    | mk res s' =>
      have hcount : countRC s'.events = countRC s.events + 1 := by
        have := revoke_countRC env s id
        rw [hrv] at this
        exact this
      have hsl : s'.sleeps = s.sleeps := by
        have := revoke_sleeps env s id
        rw [hrv] at this
        exact this
      cases res with
      | ok u =>
        cases u
        have he : expireLoop env id (n + 1) attempt s = (true, s') := by
          simp [expireLoop, hrv]
        refine ⟨1, ?_, ?_⟩
        · intro _
          rw [he]
          exact ⟨le_refl 1, by omega, hcount, by simpa using hsl⟩
        · intro hfalse
          rw [he] at hfalse
          exact absurd hfalse (by simp)
      | error e =>
        have hst : s'.store = s.store := by
          have := revoke_error_state env s id e (by rw [hrv])
          rw [hrv] at this
          exact this.1
        have he : expireLoop env id (n + 1) attempt s =
            expireLoop env id n (attempt + 1)
              { s' with sleeps := s'.sleeps ++ [(2 : Int) ^ attempt * revokeRetryBase] } := by
          simp [expireLoop, hrv]
        obtain ⟨j', hT, hF⟩ := ih (attempt + 1)
          { s' with sleeps := s'.sleeps ++ [(2 : Int) ^ attempt * revokeRetryBase] }
        have hfun : ∀ m : Nat,
            (2 : Int) ^ attempt * revokeRetryBase ::
              (List.range m).map (fun i => (2 : Int) ^ (attempt + 1 + i) * revokeRetryBase) =
            (List.range (m + 1)).map (fun i => (2 : Int) ^ (attempt + i) * revokeRetryBase) := by
          intro m
          rw [List.range_succ_eq_map, List.map_cons, List.map_map]
          refine congrArg₂ List.cons (by rw [Nat.add_zero]) (List.map_congr_left ?_)
          intro i _
          have hx : attempt + 1 + i = attempt + (i + 1) := by omega
          show (2 : Int) ^ (attempt + 1 + i) * revokeRetryBase =
            (2 : Int) ^ (attempt + (i + 1)) * revokeRetryBase
          rw [hx]
        refine ⟨j' + 1, ?_, ?_⟩
        · intro htrue
          rw [he] at htrue
          obtain ⟨hj1, hjn, hc, hs⟩ := hT htrue
          obtain ⟨m, rfl⟩ : ∃ m, j' = m + 1 := ⟨j' - 1, by omega⟩
          refine ⟨by omega, by omega, ?_, ?_⟩
          · rw [he, hc]
            show countRC s'.events + (m + 1) = countRC s.events + (m + 1 + 1)
            rw [hcount]
            omega
          · rw [he, hs]
            show (s'.sleeps ++ [(2 : Int) ^ attempt * revokeRetryBase]) ++
                (List.range (m + 1 - 1)).map
                  (fun i => (2 : Int) ^ (attempt + 1 + i) * revokeRetryBase) =
              s.sleeps ++ (List.range (m + 1 + 1 - 1)).map
                (fun i => (2 : Int) ^ (attempt + i) * revokeRetryBase)
            rw [hsl, Nat.add_sub_cancel, Nat.add_sub_cancel, List.append_assoc]
            exact congrArg (fun l => s.sleeps ++ l) (hfun m)
        · intro hfalse
          rw [he] at hfalse
          obtain ⟨hj, hc, hs, hst'⟩ := hF hfalse
          refine ⟨by omega, ?_, ?_, ?_⟩
          · rw [he, hc]
            show countRC s'.events + j' = countRC s.events + (j' + 1)
            rw [hcount]
            omega
          · rw [he, hs]
            show (s'.sleeps ++ [(2 : Int) ^ attempt * revokeRetryBase]) ++
                (List.range j').map (fun i => (2 : Int) ^ (attempt + 1 + i) * revokeRetryBase) =
              s.sleeps ++ (List.range (j' + 1)).map
                (fun i => (2 : Int) ^ (attempt + i) * revokeRetryBase)
            rw [hsl, List.append_assoc]
            exact congrArg (fun l => s.sleeps ++ l) (hfun j')
          · rw [he, hst', hst]

/-- C3 (amended): when a timer fires, `expireID` first removes the id
from the pending table and only then starts revoking; it invokes
`Revoke` between one and `maxRevokeAttempts` (6) times, stopping at the
first success; after each FAILED attempt (including the last) it sleeps
`revokeRetryBase * 2 ^ attempt` (10s doubling), so six failed attempts
perform six sleeps (10,20,40,80,160,320), and after the sixth failure
it abandons with the entry left in durable storage. -/
theorem expire_retry_backoff (env : Env) (s : MState) (id : String) :
    expireID env s id =
      expireLoop env id maxRevokeAttempts 0 { s with pending := aerase id s.pending } ∧
    ∃ j : Nat, 1 ≤ j ∧ j ≤ maxRevokeAttempts ∧
      countRC (expireID env s id).2.events = countRC s.events + j ∧
      ((expireID env s id).1 = true →
        (expireID env s id).2.sleeps =
          s.sleeps ++ (List.range (j - 1)).map (fun i => (2 : Int) ^ i * revokeRetryBase)) ∧
      ((expireID env s id).1 = false →
        j = maxRevokeAttempts ∧
        (expireID env s id).2.sleeps =
          s.sleeps ++ (List.range maxRevokeAttempts).map
            (fun i => (2 : Int) ^ i * revokeRetryBase) ∧
        (expireID env s id).2.store = s.store) := by
  obtain ⟨j, hT, hF⟩ :=
    expireLoop_trace env id maxRevokeAttempts 0 { s with pending := aerase id s.pending }
  have hzero : ∀ m : Nat,
      (List.range m).map (fun i => (2 : Int) ^ (0 + i) * revokeRetryBase) =
      (List.range m).map (fun i => (2 : Int) ^ i * revokeRetryBase) := by
    intro m
    refine List.map_congr_left ?_
    intro i _
    rw [Nat.zero_add]
  cases hb : (expireID env s id).1 with
  | true =>
    obtain ⟨hj1, hjn, hc, hs⟩ := hT hb
    refine ⟨rfl, j, hj1, hjn, hc, ?_, ?_⟩
    · intro _
      rw [show (expireID env s id).2.sleeps =
          ({ s with pending := aerase id s.pending } : MState).sleeps ++
            (List.range (j - 1)).map (fun i => (2 : Int) ^ (0 + i) * revokeRetryBase) from hs]
      rw [hzero]
    · intro hfalse
      exact Bool.noConfusion hfalse
  | false =>
    obtain ⟨hj, hc, hs, hst⟩ := hF hb
    refine ⟨rfl, j, by rw [hj]; decide, le_of_eq hj, hc, ?_, ?_⟩
    · intro htrue
      exact Bool.noConfusion htrue
    · intro _
      refine ⟨hj, ?_, hst⟩
      rw [show (expireID env s id).2.sleeps =
          ({ s with pending := aerase id s.pending } : MState).sleeps ++
            (List.range j).map (fun i => (2 : Int) ^ (0 + i) * revokeRetryBase) from hs]
      rw [hzero, hj]

/-- Counterexample to C3 as stated: with a backend that always fails,
all six revoke attempts fail and SIX backoff sleeps are performed
(10,20,40,80,160,320 seconds) — not five sleeps for six attempts as the
claim says, because the code also sleeps after the final failed attempt
before abandoning. -/
theorem expire_five_sleeps_cex :
    countRC (expireID envFail sW "aws/u1").2.events = 6 ∧
    (expireID envFail sW "aws/u1").2.sleeps = [10, 20, 40, 80, 160, 320] ∧
    ¬ (expireID envFail sW "aws/u1").2.sleeps.length = 5 := by
  refine ⟨rfl, rfl, ?_⟩
  rw [show (expireID envFail sW "aws/u1").2.sleeps = [10, 20, 40, 80, 160, 320] from rfl]
  decide

/-- Witness for the amended C3 at a concrete input: with an
always-failing backend the loop abandons after six attempts, the six
clamped backoff sleeps are on the trace, and the entry is still in
storage. -/
theorem expire_retry_backoff_witness :
    (expireID envFail sW "aws/u1").2.sleeps =
      sW.sleeps ++ (List.range maxRevokeAttempts).map
        (fun i => (2 : Int) ^ i * revokeRetryBase) ∧
    (expireID envFail sW "aws/u1").2.store = sW.store := by
  obtain ⟨-, j, -, -, -, -, hF⟩ := expire_retry_backoff envFail sW "aws/u1"
  obtain ⟨-, hs, hst⟩ := hF rfl
  exact ⟨hs, hst⟩

theorem alookup_some_mem {α : Type} (k : String) (v : α) :
    ∀ l : List (String × α), alookup k l = some v → (k, v) ∈ l := by
  intro l
  induction l with
  | nil => intro h; exact absurd h (by simp)
  | cons kv rest ih =>
    obtain ⟨k₀, v₀⟩ := kv
    intro h
    rw [alookup_cons] at h
    by_cases h0 : k₀ = k
    · rw [if_pos h0] at h
      subst h0
      injection h with h
      subst h
      exact List.mem_cons_self _ _
    · rw [if_neg h0] at h
      exact List.mem_cons_of_mem _ (ih h)

theorem strHasPref_append_drop (pref k : String) (h : strHasPref pref k = true) :
    pref ++ strDropPref pref k = k := by
  unfold strHasPref at h
  obtain ⟨t, ht⟩ := List.isPrefixOf_iff_prefix.mp h
  refine String.ext ?_
  rw [String.data_append]
  show pref.data ++ (strDropPref pref k).data = k.data
  have hd : (strDropPref pref k).data = k.data.drop pref.data.length := rfl
  rw [hd, ← ht, List.drop_left]

theorem mem_collectKeysUnder (store : List (String × leaseEntry)) (pref k : String)
    (le : leaseEntry) (hle : alookup k store = some le) (hp : strHasPref pref k = true) :
    strDropPref pref k ∈ collectKeysUnder store pref := by
  have hmem : (k, le) ∈ store := alookup_some_mem k le store hle
  unfold collectKeysUnder
  rw [List.mem_filterMap]
  exact ⟨(k, le), hmem, by rw [if_pos hp]⟩

theorem revokeKeysLoop_spec (env : Env) (pref : String) (total : Nat) :
    ∀ (ks : List String) (s : MState) (idx : Nat),
      ((revokeKeysLoop env pref total s ks idx).1 = Except.ok () ∧
        (∀ k ∈ ks, alookup (pref ++ k) (revokeKeysLoop env pref total s ks idx).2.store = none) ∧
        (∀ key : String, alookup key s.store = none →
           alookup key (revokeKeysLoop env pref total s ks idx).2.store = none))
      ∨ (∃ i e, i < ks.length ∧
          (revokeKeysLoop env pref total s ks idx).1 =
            Except.error (revokeFailMsg (pref ++ ks.getD i "") (idx + i + 1) total e) ∧
          (∀ j, j < i →
            alookup (pref ++ ks.getD j "") (revokeKeysLoop env pref total s ks idx).2.store
              = none) ∧
          (∀ key : String, alookup key s.store = none →
             alookup key (revokeKeysLoop env pref total s ks idx).2.store = none)) := by
  intro ks
  induction ks with
  | nil =>
    intro s idx
    left
    exact ⟨rfl, by intro k hk; exact absurd hk (by simp), fun key h => h⟩
  | cons k0 rest ih =>
    intro s idx
    cases hrv : Revoke env s (pref ++ k0) with
    | mk res s' =>
      cases res with
      | ok u =>
        cases u
        have he : revokeKeysLoop env pref total s (k0 :: rest) idx =
            revokeKeysLoop env pref total s' rest (idx + 1) := by
          simp [revokeKeysLoop, hrv]
        have hgone : alookup (pref ++ k0) s'.store = none := by
          have := revoke_ok_none env s (pref ++ k0) (by rw [hrv])
          rw [hrv] at this
          exact this
        have hpres : ∀ key : String, alookup key s.store = none →
            alookup key s'.store = none := by
          intro key hk
          have := revoke_store_none_preserved env s (pref ++ k0) key hk
          rw [hrv] at this
          exact this
        rcases ih s' (idx + 1) with ⟨hok, hall, hkeep⟩ | ⟨i, e, hi, herr, hdone, hkeep⟩
        · left
          refine ⟨by rw [he]; exact hok, ?_, ?_⟩
          · intro k hk
            rw [he]
            rcases List.mem_cons.mp hk with hk0 | hkr
            · subst hk0
              exact hkeep (pref ++ k) hgone
            · exact hall k hkr
          · intro key hkey
            rw [he]
            exact hkeep key (hpres key hkey)
        · right
          refine ⟨i + 1, e, by simpa using Nat.succ_lt_succ hi, ?_, ?_, ?_⟩
          · rw [he]
            have : idx + 1 + i + 1 = idx + (i + 1) + 1 := by omega
            rw [this] at herr
            simpa using herr
          · intro j hj
            rw [he]
            cases j with
            | zero => exact hkeep (pref ++ k0) hgone
            | succ j' =>
              have : j' < i := by omega
              simpa using hdone j' this
          · intro key hkey
            rw [he]
            exact hkeep key (hpres key hkey)
      | error e =>
        have he : revokeKeysLoop env pref total s (k0 :: rest) idx =
            (Except.error (revokeFailMsg (pref ++ k0) (idx + 1) total e), s') := by
          simp [revokeKeysLoop, hrv]
        right
        refine ⟨0, e, by simp, ?_, ?_, ?_⟩
        · rw [he]
          show Except.error (revokeFailMsg (pref ++ k0) (idx + 1) total e) =
            Except.error (revokeFailMsg (pref ++ (k0 :: rest).getD 0 "") (idx + 0 + 1) total e)
          rfl
        · intro j hj
          exact absurd hj (by omega)
        · intro key hkey
          rw [he]
          have := revoke_store_none_preserved env s (pref ++ k0) key hkey
          rw [hrv] at this
          exact this

/-- C4: `RevokePrefix` normalizes the prefix to end in a slash and
revokes each key listed under the prefix sub-view; either it returns
success and every entry whose key starts with the normalized prefix is
gone from storage, or it stops at the first failing `Revoke` and
returns an error naming the failing lease id and its one-based ordinal
in the scan, with the effects of the preceding revocations retained
(their keys already deleted). -/
theorem revokePrefixed_spec (env : Env) (s : MState) (p : String) :
    ((RevokePrefixed env s p).1 = Except.ok () ∧
      (∀ k (le : leaseEntry), alookup k s.store = some le → strHasPref (normSlash p) k = true →
        alookup k (RevokePrefixed env s p).2.store = none))
    ∨ (∃ i e, i < (collectKeysUnder s.store (normSlash p)).length ∧
        (RevokePrefixed env s p).1 = Except.error
          (revokeFailMsg (normSlash p ++ (collectKeysUnder s.store (normSlash p)).getD i "")
            (i + 1) (collectKeysUnder s.store (normSlash p)).length e) ∧
        (∀ j, j < i →
          alookup (normSlash p ++ (collectKeysUnder s.store (normSlash p)).getD j "")
            (RevokePrefixed env s p).2.store = none)) := by
  have heq : RevokePrefixed env s p =
      revokeKeysLoop env (normSlash p) (collectKeysUnder s.store (normSlash p)).length s
        (collectKeysUnder s.store (normSlash p)) 0 := rfl
  rcases revokeKeysLoop_spec env (normSlash p)
      (collectKeysUnder s.store (normSlash p)).length
      (collectKeysUnder s.store (normSlash p)) s 0 with
    ⟨hok, hall, hkeep⟩ | ⟨i, e, hi, herr, hdone, hkeep⟩
  · left
    refine ⟨by rw [heq]; exact hok, ?_⟩
    intro k le hle hp
    have hmem : strDropPref (normSlash p) k ∈ collectKeysUnder s.store (normSlash p) :=
      mem_collectKeysUnder s.store (normSlash p) k le hle hp
    have := hall (strDropPref (normSlash p) k) hmem
    rw [strHasPref_append_drop (normSlash p) k hp] at this
    rw [heq]
    exact this
  · right
    refine ⟨i, e, hi, ?_, ?_⟩
    · rw [heq]
      simpa using herr
    · intro j hj
      rw [heq]
      exact hdone j hj

/-- A second lease under the `aws/` mount, to exercise the prefix scan. -/
def leW2 : leaseEntry :=
  { vaultID := "aws/u2", loginToken := "", path := "aws",
    data := [], secret := some ⟨30, 0, 0, ""⟩, issueTime := 0, expireTime := 30 }

/-- A state holding two leases under `aws/` and one under `pg/`. -/
def sPfx : MState :=
  { store := [("aws/u1", leW), ("aws/u2", leW2),
              ("pg/u3", { leW with vaultID := "pg/u3", path := "pg" })],
    pending := [], now := 5, calls := 0, events := [], sleeps := [] }

/-- Witness for C4 at a concrete input: with a succeeding backend,
`RevokePrefix "aws"` removes both `aws/` leases from storage. -/
theorem revokePrefixed_spec_witness :
    alookup "aws/u1" (RevokePrefixed envOk sPfx "aws").2.store = none ∧
    alookup "aws/u2" (RevokePrefixed envOk sPfx "aws").2.store = none := by
  rcases revokePrefixed_spec envOk sPfx "aws" with ⟨-, hall⟩ | ⟨i, e, hi, herr, -⟩
  · exact ⟨hall "aws/u1" leW rfl rfl, hall "aws/u2" leW2 rfl rfl⟩
  · rw [show (RevokePrefixed envOk sPfx "aws").1 = Except.ok () from rfl] at herr
    exact Except.noConfusion herr

theorem restoreStep_none (now : Time) (store : List (String × leaseEntry))
    (pend : List (String × Duration)) (key : String) (h : alookup key store = none) :
    restoreStep now store pend key = pend := by
  simp [restoreStep, h]

theorem restoreStep_zero (now : Time) (store : List (String × leaseEntry))
    (pend : List (String × Duration)) (key : String) (le : leaseEntry)
    (h : alookup key store = some le) (hz : le.expireTime = 0) :
    restoreStep now store pend key = pend := by
  simp [restoreStep, h, hz]

theorem restoreStep_arm (now : Time) (store : List (String × leaseEntry))
    (pend : List (String × Duration)) (key : String) (le : leaseEntry)
    (h : alookup key store = some le) (hz : le.expireTime ≠ 0) :
    restoreStep now store pend key =
      ainsert le.vaultID
        (if le.expireTime - now ≤ 0 then minRevokeDelay else le.expireTime - now) pend := by
  simp [restoreStep, h, hz]

theorem restore_fold_notmem (now : Time) (store : List (String × leaseEntry)) :
    ∀ (keys : List String) (pend : List (String × Duration)) (k : String),
      (∀ k' ∈ keys, ∀ le : leaseEntry, alookup k' store = some le → le.vaultID = k') →
      k ∉ keys →
      alookup k (keys.foldl (restoreStep now store) pend) = alookup k pend := by
  intro keys
  induction keys with
  | nil => intro pend k _ _; rfl
  | cons k0 rest ih =>
    intro pend k hwf hk
    have hk0 : k0 ≠ k := fun h => hk (h ▸ List.mem_cons_self _ _)
    have hkr : k ∉ rest := fun h => hk (List.mem_cons_of_mem _ h)
    have hwr : ∀ k' ∈ rest, ∀ le : leaseEntry, alookup k' store = some le → le.vaultID = k' :=
      fun k' h => hwf k' (List.mem_cons_of_mem _ h)
    rw [List.foldl_cons, ih (restoreStep now store pend k0) k hwr hkr]
    cases hle : alookup k0 store with
    | none => rw [restoreStep_none now store pend k0 hle]
    | some le =>
      have hv : le.vaultID = k0 := hwf k0 (List.mem_cons_self _ _) le hle
      by_cases hz : le.expireTime = 0
      · rw [restoreStep_zero now store pend k0 le hle hz]
      · rw [restoreStep_arm now store pend k0 le hle hz, hv]
        exact alookup_ainsert_ne k k0 _ pend hk0

theorem restore_fold_mem (now : Time) (store : List (String × leaseEntry)) :
    ∀ (keys : List String) (pend : List (String × Duration)) (k : String) (le : leaseEntry),
      (∀ k' ∈ keys, ∀ le' : leaseEntry, alookup k' store = some le' → le'.vaultID = k') →
      keys.Nodup → k ∈ keys → alookup k store = some le →
      alookup k (keys.foldl (restoreStep now store) pend) =
        (if le.expireTime = 0 then alookup k pend
         else some (if le.expireTime - now ≤ 0 then minRevokeDelay else le.expireTime - now)) := by
  intro keys
  induction keys with
  | nil => intro pend k le _ _ hk; exact absurd hk (by simp)
  | cons k0 rest ih =>
    intro pend k le hwf hnd hk hle
    have hwr : ∀ k' ∈ rest, ∀ le' : leaseEntry, alookup k' store = some le' → le'.vaultID = k' :=
      fun k' h => hwf k' (List.mem_cons_of_mem _ h)
    rcases List.mem_cons.mp hk with hk0 | hkr
    · subst hk0
      have hkr' : k ∉ rest := (List.nodup_cons.mp hnd).1
      rw [List.foldl_cons, restore_fold_notmem now store rest _ k hwr hkr']
      have hv : le.vaultID = k := hwf k (List.mem_cons_self _ _) le hle
      by_cases hz : le.expireTime = 0
      · rw [restoreStep_zero now store pend k le hle hz, if_pos hz]
      · rw [restoreStep_arm now store pend k le hle hz, if_neg hz, hv]
        exact alookup_ainsert_self k _ pend
    · have hnd' : rest.Nodup := (List.nodup_cons.mp hnd).2
      rw [List.foldl_cons, ih (restoreStep now store pend k0) k le hwr hnd' hkr hle]
      have hk0 : k0 ≠ k := by
        intro h
        subst h
        exact (List.nodup_cons.mp hnd).1 hkr
      by_cases hz : le.expireTime = 0
      · rw [if_pos hz, if_pos hz]
        cases hle0 : alookup k0 store with
        | none => rw [restoreStep_none now store pend k0 hle0]
        | some le0 =>
          have hv0 : le0.vaultID = k0 := hwf k0 (List.mem_cons_self _ _) le0 hle0
          by_cases hz0 : le0.expireTime = 0
          · rw [restoreStep_zero now store pend k0 le0 hle0 hz0]
          · rw [restoreStep_arm now store pend k0 le0 hle0 hz0, hv0]
            exact alookup_ainsert_ne k k0 _ pend hk0
      · rw [if_neg hz, if_neg hz]

theorem mem_keys_of_alookup {α : Type} (k : String) (v : α) :
    ∀ l : List (String × α), alookup k l = some v → k ∈ l.map Prod.fst := by
  intro l h
  have := alookup_some_mem (α := α) k v l h
  exact List.mem_map.mpr ⟨(k, v), this, rfl⟩

theorem alookup_isSome_of_mem_keys {α : Type} (k : String) :
    ∀ l : List (String × α), k ∈ l.map Prod.fst → (alookup k l).isSome := by
  intro l
  induction l with
  | nil => intro h; exact absurd h (by simp)
  | cons kv rest ih =>
    obtain ⟨k₀, v₀⟩ := kv
    intro h
    rw [alookup_cons]
    by_cases h0 : k₀ = k
    · rw [if_pos h0]; rfl
    · rw [if_neg h0]
      refine ih ?_
      rcases List.mem_map.mp h with ⟨kv', hmem, hfst⟩
      rcases List.mem_cons.mp hmem with hh | ht
      · exact absurd (by rw [hh] at hfst; exact hfst) h0
      · exact List.mem_map.mpr ⟨kv', ht, hfst⟩

/-- C5: `Restore` modifies no durable entries; entries with zero
`expire_time` contribute no timer (their pending slot is whatever it
was before), and every other entry gets exactly one timer armed for
`remaining = expire_time - now`, clamped up to `minRevokeDelay` (5s)
when not positive.  Keys with no entry keep their pending slot as well
(entries missing from storage are unrepresentable in this sequential
model, so the skip-missing clause is the `none` case).  Hypotheses: the
store is well formed (each entry is keyed by its own id, as
`persistEntry` guarantees) and has no duplicate keys. -/
theorem restore_spec (s : MState)
    (hwf : ∀ k (le : leaseEntry), alookup k s.store = some le → le.vaultID = k)
    (hnd : (s.store.map Prod.fst).Nodup) :
    (Restore s).1 = Except.ok () ∧
    (Restore s).2.store = s.store ∧
    (∀ k, alookup k s.store = none →
        alookup k (Restore s).2.pending = alookup k s.pending) ∧
    (∀ k (le : leaseEntry), alookup k s.store = some le →
        (le.expireTime = 0 → alookup k (Restore s).2.pending = alookup k s.pending) ∧
        (le.expireTime ≠ 0 → alookup k (Restore s).2.pending =
          some (if le.expireTime - s.now ≤ 0 then minRevokeDelay
                else le.expireTime - s.now))) := by
  have hwk : ∀ k' ∈ s.store.map Prod.fst, ∀ le' : leaseEntry,
      alookup k' s.store = some le' → le'.vaultID = k' :=
    fun k' _ le' h => hwf k' le' h
  refine ⟨rfl, rfl, ?_, ?_⟩
  · intro k hk
    have hnm : k ∉ s.store.map Prod.fst := by
      intro hmem
      have := alookup_isSome_of_mem_keys k s.store hmem
      rw [hk] at this
      exact absurd this (by simp)
    exact restore_fold_notmem s.now s.store (s.store.map Prod.fst) s.pending k hwk hnm
  · intro k le hle
    have hmem : k ∈ s.store.map Prod.fst := mem_keys_of_alookup k le s.store hle
    have h := restore_fold_mem s.now s.store (s.store.map Prod.fst) s.pending k le
      hwk hnd hmem hle
    constructor
    · intro hz
      rw [show alookup k (Restore s).2.pending =
        alookup k ((s.store.map Prod.fst).foldl (restoreStep s.now s.store) s.pending) from rfl,
        h, if_pos hz]
    · intro hz
      rw [show alookup k (Restore s).2.pending =
        alookup k ((s.store.map Prod.fst).foldl (restoreStep s.now s.store) s.pending) from rfl,
        h, if_neg hz]

/-- The sample lease, already expired at restore time. -/
def leR1 : leaseEntry := { leW with expireTime := 2 }

/-- A non-expiring sample lease. -/
def leR4 : leaseEntry := { leW with vaultID := "cfg/u4", path := "cfg", expireTime := 0 }

/-- A state with one already-expired lease, one future lease and one
non-expiring lease, with an empty pending table (as at startup). -/
def sRst : MState :=
  { store := [("aws/u1", leR1), ("aws/u2", leW2), ("cfg/u4", leR4)],
    pending := [], now := 5, calls := 0, events := [], sleeps := [] }

/-- Witness for C5 at a concrete input: restoring the sample state
leaves storage unchanged, clamps the overdue lease to the 5s minimum
delay, arms the future lease for its remaining 25s, and arms nothing
for the non-expiring lease. -/
theorem restore_spec_witness :
    (Restore sRst).2.store = sRst.store ∧
    alookup "aws/u1" (Restore sRst).2.pending = some minRevokeDelay ∧
    alookup "aws/u2" (Restore sRst).2.pending = some 25 ∧
    alookup "cfg/u4" (Restore sRst).2.pending = none := by
  have h := restore_spec sRst
    (by
      intro k le hle
      simp only [sRst] at hle
      rw [alookup_cons] at hle
      split at hle
      · rename_i h1
        injection hle with hle
        subst hle
        exact h1 ▸ rfl
      · rw [alookup_cons] at hle
        split at hle
        · rename_i h2
          injection hle with hle
          subst hle
          exact h2 ▸ rfl
        · rw [alookup_cons] at hle
          split at hle
          · rename_i h3
            injection hle with hle
            subst hle
            exact h3 ▸ rfl
          · exact absurd hle (by simp))
    (by decide)
  obtain ⟨-, hst, hnone, hsome⟩ := h
  refine ⟨hst, ?_, ?_, ?_⟩
  · have := (hsome "aws/u1" leR1 rfl).2 (by decide)
    rw [this]
    rfl
  · have := (hsome "aws/u2" leW2 rfl).2 (by decide)
    rw [this]
    rfl
  · have := (hsome "cfg/u4" leR4 rfl).1 rfl
    rw [this]
    rfl

theorem renewEntry_eq (env : Env) (s : MState) (le : leaseEntry) (inc : Duration) :
    renewEntry env s le inc =
      ((match env.route s.calls (renewReqOf le inc) with
        | Except.error e => Except.error ("failed to renew entry: " ++ e)
        | Except.ok r => Except.ok r),
       { s with calls := s.calls + 1,
                events := s.events ++ [Event.routeCall (renewReqOf le inc)] }) := by
  simp only [renewEntry]
  cases env.route s.calls (renewReqOf le inc) <;> rfl

/-- C6: when `Renew`'s backend dispatch returns a response carrying a
secret with a positive lease that passes validation, `Renew` stamps the
secret's id slot with the lease id, recomputes
`expire_time = now + new_lease + new_grace`, overwrites the stored
entry with the new data, secret and expire time, and resets the
pending timer to the new lease total only if a timer already exists for
that id (a lease without a timer gains none). -/
theorem renew_success_spec (env : Env) (s : MState) (id : String) (le : leaseEntry)
    (inc : Duration) (r : Response) (sec : Secret)
    (hle : alookup id s.store = some le)
    (hwf : le.vaultID = id)
    (hexp : ¬ le.expireTime < s.now)
    (hroute : env.route s.calls (renewReqOf le inc) = Except.ok (some r))
    (hsec : r.secret = some sec)
    (hpos : 0 < sec.lease)
    (hval : env.validate sec = Except.ok ()) :
    Renew env s id inc =
      (Except.ok (some { r with secret := some { sec with vaultID := id } }),
       { s with
         store :=
           ainsert id
             { le with
               data := r.data,
               secret := some { sec with vaultID := id },
               expireTime := s.now + (sec.lease + sec.leaseGracePeriod) }
             s.store,
         pending :=
           if (alookup id s.pending).isSome
           then ainsert id (sec.lease + sec.leaseGracePeriod) s.pending
           else s.pending,
         calls := s.calls + 1,
         events := s.events ++ [Event.routeCall (renewReqOf le inc), Event.storePut id] }) := by
  have hl0 : ¬ sec.lease = 0 := ne_of_gt hpos
  simp only [Renew, loadEntry, hle, hexp, if_false, renewEntry_eq, hroute, hsec, hl0,
    if_neg, hval, persistEntry, hwf, hpos, if_pos, ite_not]
  simp [hexp, hl0, hpos, hwf, List.append_assoc]

/-- C7: revocation dispatch is selected by the login token.  When it is
non-empty, exactly the token store's `RevokeTree` is called (the trace
records no router request) and its error, wrapped, is the result; when
it is empty, a revoke request bound to the entry's path, secret and
data is routed, the response value is discarded, and only the router's
error (wrapped) determines the result. -/
theorem revoke_entry_dispatch (env : Env) (s : MState) (le : leaseEntry) :
    (le.loginToken ≠ "" →
      revokeEntry env s le =
        ((match env.revokeTree s.calls le.loginToken with
          | Except.error e => Except.error ("failed to revoke token: " ++ e)
          | Except.ok _ => Except.ok ()),
         { s with calls := s.calls + 1,
                  events := s.events ++ [Event.tokenRevoke le.loginToken] }))
    ∧ (le.loginToken = "" →
      revokeEntry env s le =
        ((match env.route s.calls (RevokeRequest le.path le.secret le.data) with
          | Except.error e => Except.error ("failed to revoke entry: " ++ e)
          | Except.ok _ => Except.ok ()),
         { s with calls := s.calls + 1,
                  events := s.events ++
                    [Event.routeCall (RevokeRequest le.path le.secret le.data)] })) := by
  constructor
  · intro h
    rw [revokeEntry_eq]
    unfold dispatchResult dispatchOf
    rw [if_pos h, if_pos h]
  · intro h
    have h' : ¬ le.loginToken ≠ "" := fun hn => hn h
    rw [revokeEntry_eq]
    unfold dispatchResult dispatchOf
    rw [if_neg h', if_neg h']

/-- A login-token lease: revocation must go to the token store. -/
def leTok : leaseEntry :=
  { vaultID := "auth/t", loginToken := "t1", path := "auth",
    data := [], secret := none, issueTime := 0, expireTime := 60 }

/-- A state holding the login-token lease. -/
def sTok : MState :=
  { store := [("auth/t", leTok)], pending := [], now := 5, calls := 0,
    events := [], sleeps := [] }

/-- Witness for C7 at a concrete input: revoking the login-token lease
calls the token store exactly once and records no router request. -/
theorem revoke_entry_dispatch_witness :
    revokeEntry envOk sTok leTok =
      (Except.ok (), { sTok with calls := 1, events := [Event.tokenRevoke "t1"] }) := by
  have h := (revoke_entry_dispatch envOk sTok leTok).1 (by decide)
  rw [h]
  exact rfl

/-- C10: a stored lease entry whose `expire_time` is the zero timestamp
(a non-expiring lease) can never be renewed: for any increment,
`Renew` fails with the lease-expired error, because the zero timestamp
compares before the current time (whenever the clock is past the zero
instant). -/
theorem renew_zero_expire_fails (env : Env) (s : MState) (id : String) (le : leaseEntry)
    (inc : Duration) (hle : alookup id s.store = some le)
    (hz : le.expireTime = 0) (hnow : 0 < s.now) :
    Renew env s id inc = (Except.error "lease expired", s) := by
  have hlt : le.expireTime < s.now := by rw [hz]; exact hnow
  simp [Renew, loadEntry, hle, hlt]

/-- A state holding only the non-expiring sample lease. -/
def sZro : MState :=
  { store := [("cfg/u4", leR4)], pending := [], now := 5, calls := 0,
    events := [], sleeps := [] }

/-- Witness for C10 at a concrete input: renewing the non-expiring
lease fails with the lease-expired error. -/
theorem renew_zero_expire_fails_witness :
    Renew envOk sZro "cfg/u4" 100 = (Except.error "lease expired", sZro) :=
  renew_zero_expire_fails envOk sZro "cfg/u4" leR4 100 rfl rfl (by decide)

/-- A renew response carrying a fresh two-minute lease. -/
def respR : Response := { secret := some ⟨120, 0, 0, "stale"⟩, data := [("k", Json.num 1)] }

/-- Environment whose router renews with `respR`. -/
def envRenew : Env :=
  { route := fun _ _ => Except.ok (some respR),
    revokeTree := fun _ _ => Except.ok (),
    validate := fun _ => Except.ok (), uuid := "u9" }

/-- Witness for C6 at a concrete input: renewing the sample lease
returns the response with the secret's id slot stamped to the lease id. -/
theorem renew_success_spec_witness :
    (Renew envRenew sW "aws/u1" 30).1 =
      Except.ok (some { respR with secret := some ⟨120, 0, 0, "aws/u1"⟩ }) := by
  have h := renew_success_spec envRenew sW "aws/u1" leW 30 respR ⟨120, 0, 0, "stale"⟩
    rfl rfl (by decide) rfl rfl (by decide) rfl
  rw [h]

theorem splitSeg_ne_nil (cs : List Char) : splitSeg cs ≠ [] := by
  cases cs with
  | nil => simp [splitSeg]
  | cons c rest =>
    unfold splitSeg
    cases h : splitSeg rest with
    | nil => simp
    | cons s ss => by_cases hc : c = '/' <;> simp [hc]

theorem splitSeg_cons (c : Char) (cs : List Char) :
    splitSeg (c :: cs) =
      match splitSeg cs with
      | [] => [[]]
      | seg :: segs => if c = '/' then [] :: seg :: segs else (c :: seg) :: segs := rfl

theorem splitSeg_append_slash (ys : List Char) :
    ∀ xs : List Char, splitSeg (xs ++ '/' :: ys) = splitSeg xs ++ splitSeg ys := by
  intro xs
  induction xs with
  | nil =>
    cases h : splitSeg ys with
    | nil => exact absurd h (splitSeg_ne_nil ys)
    | cons s ss => simp [splitSeg, h]
  | cons c rest ih =>
    show splitSeg (c :: (rest ++ '/' :: ys)) = splitSeg (c :: rest) ++ splitSeg ys
    rw [splitSeg_cons, splitSeg_cons, ih]
    cases h1 : splitSeg rest with
    | nil => exact absurd h1 (splitSeg_ne_nil rest)
    | cons s ss => by_cases hc : c = '/' <;> simp [hc, List.cons_append]

theorem splitSeg_no_slash (cs : List Char) (h : '/' ∉ cs) : splitSeg cs = [cs] := by
  induction cs with
  | nil => rfl
  | cons c rest ih =>
    have hc : ¬ c = '/' := fun hh => h (hh ▸ List.mem_cons_self _ _)
    have hr : '/' ∉ rest := fun hh => h (List.mem_cons_of_mem _ hh)
    unfold splitSeg
    rw [ih hr]
    simp [hc]

theorem joinSegs_splitSeg (cs : List Char) : joinSegs (splitSeg cs) = cs := by
  induction cs with
  | nil => rfl
  | cons c rest ih =>
    unfold splitSeg
    cases h : splitSeg rest with
    | nil => exact absurd h (splitSeg_ne_nil rest)
    | cons s ss =>
      rw [h] at ih
      show joinSegs (if c = '/' then [] :: s :: ss else (c :: s) :: ss) = c :: rest
      by_cases hc : c = '/'
      · rw [if_pos hc]
        subst hc
        show ([] : List Char) ++ '/' :: joinSegs (s :: ss) = '/' :: rest
        rw [ih]
        rfl
      · rw [if_neg hc]
        cases ss with
        | nil =>
          show c :: s = c :: rest
          have hs : s = rest := ih
          rw [hs]
        | cons t ts =>
          show (c :: s) ++ '/' :: joinSegs (t :: ts) = c :: rest
          have hs : s ++ '/' :: joinSegs (t :: ts) = rest := ih
          rw [← hs]
          rfl

/-- A path segment through which Go `path.Clean` passes unchanged:
nonempty, slash-free, and not a dot segment.  (A fresh uuid is such a
segment.) -/
abbrev simpleSeg (seg : List Char) : Prop :=
  seg ≠ [] ∧ '/' ∉ seg ∧ seg ≠ ['.'] ∧ seg ≠ ['.', '.']

/-- A request path that is already in cleaned relative form: nonempty,
not rooted, and all its slash-separated segments simple. -/
abbrev simplePath (s : String) : Prop :=
  s ≠ "" ∧ s.data.head? ≠ some '/' ∧ ∀ seg ∈ splitSeg s.data, simpleSeg seg

theorem cleanStep_push (rooted : Bool) (stack : List (List Char)) (seg : List Char)
    (h : simpleSeg seg) : cleanStep rooted stack seg = seg :: stack := by
  obtain ⟨h1, h2, h3, h4⟩ := h
  unfold cleanStep
  rw [if_neg (not_or.mpr ⟨h1, h3⟩), if_neg h4]

theorem foldl_cleanStep_simple (rooted : Bool) :
    ∀ (segs : List (List Char)) (stack : List (List Char)),
      (∀ seg ∈ segs, simpleSeg seg) →
      segs.foldl (cleanStep rooted) stack = segs.reverse ++ stack := by
  intro segs
  induction segs with
  | nil => intro stack _; rfl
  | cons s ss ih =>
    intro stack hall
    rw [List.foldl_cons, cleanStep_push rooted stack s (hall s (List.mem_cons_self _ _)),
        ih (s :: stack) (fun seg hm => hall seg (List.mem_cons_of_mem _ hm))]
    simp

theorem joinSegs_append_last (u : List Char) :
    ∀ xs : List (List Char), xs ≠ [] → joinSegs (xs ++ [u]) = joinSegs xs ++ '/' :: u := by
  intro xs
  induction xs with
  | nil => intro h; exact absurd rfl h
  | cons s ss ih =>
    intro _
    cases ss with
    | nil => rfl
    | cons t ts =>
      show s ++ '/' :: joinSegs ((t :: ts) ++ [u]) = (s ++ '/' :: joinSegs (t :: ts)) ++ '/' :: u
      rw [ih (by simp)]
      simp

theorem cleanChars_simple_join (p : String) (u : List Char)
    (hp : simplePath p) (hu : simpleSeg u) :
    cleanChars (p.data ++ '/' :: u) = p.data ++ '/' :: u := by
  obtain ⟨hne, hhead, hsegs⟩ := hp
  have hdne : p.data ≠ [] := by
    intro h
    exact hne (String.ext h)
  have hhead2 : (p.data ++ '/' :: u).head? = p.data.head? := by
    cases hd : p.data with
    | nil => exact absurd hd hdne
    | cons a as => rfl
  have hrooted : ((p.data ++ '/' :: u).head? == some '/') = false := by
    rw [hhead2]
    exact beq_eq_false_iff_ne.mpr hhead
  have hsplit : splitSeg (p.data ++ '/' :: u) = splitSeg p.data ++ [u] := by
    rw [splitSeg_append_slash u p.data, splitSeg_no_slash u hu.2.1]
  have hall : ∀ seg ∈ splitSeg p.data ++ [u], simpleSeg seg := by
    intro seg hm
    rcases List.mem_append.mp hm with hm | hm
    · exact hsegs seg hm
    · rw [List.mem_singleton.mp hm]
      exact hu
  have hstack : (splitSeg (p.data ++ '/' :: u)).foldl
      (cleanStep ((p.data ++ '/' :: u).head? == some '/')) [] =
      (splitSeg p.data ++ [u]).reverse := by
    rw [hsplit, hrooted, foldl_cleanStep_simple false (splitSeg p.data ++ [u]) [] hall,
        List.append_nil]
  have hnn : (splitSeg p.data ++ [u]).reverse ≠ [] := by simp
  simp only [cleanChars]
  rw [hstack, if_neg hnn, hrooted]
  show joinSegs ((splitSeg p.data ++ [u]).reverse).reverse = p.data ++ '/' :: u
  rw [List.reverse_reverse,
      joinSegs_append_last u (splitSeg p.data) (splitSeg_ne_nil p.data),
      joinSegs_splitSeg]

theorem pathJoin_simple (p u : String) (hp : simplePath p) (hu : simpleSeg u.data) :
    pathJoin p u = p ++ "/" ++ u := by
  unfold pathJoin
  rw [if_pos hp.1]
  have hdata : (p ++ "/" ++ u).data = p.data ++ '/' :: u.data := by
    rw [String.data_append, String.data_append]
    simp
  unfold pathClean
  rw [hdata]
  have hnn : p.data ++ '/' :: u.data ≠ [] := by simp
  rw [if_neg hnn, cleanChars_simple_join p u.data hp hu]
  refine String.ext ?_
  rw [hdata]

/-- C9 (amended): every non-empty id returned by `Register` is
`path.Join(request.path, uuid)`; when `request.path` is a nonempty,
non-rooted, already-clean path (every slash-separated segment nonempty
and not `.` or `..`) and the uuid is such a segment, the id equals
`request.path ++ "/" ++ uuid`, i.e. the request path is a strict prefix
followed by the separator with the fresh uuid as the remainder.  For
degenerate request paths (empty, rooted, trailing-slash or dotted) the
lexical cleaning inside `path.Join` breaks the strict-prefix property. -/
theorem register_id_format (env : Env) (s : MState) (req : Request) (resp : Option Response)
    (id : String) (s1 : MState)
    (h : Register env s req resp = (Except.ok id, s1)) (hne : id ≠ "")
    (hp : simplePath req.path) (hu : simpleSeg env.uuid.data) :
    id = req.path ++ "/" ++ env.uuid := by
  obtain ⟨le, -, hid, -⟩ := register_ok_shape env s req resp id s1 h hne
  rw [hid, pathJoin_simple req.path env.uuid hp hu]

/-- Counterexample to C9 as stated: registering under the empty request
path returns the bare uuid as id (Go `path.Join` drops empty elements),
and that id does not have the request path as a strict prefix followed
by a slash with the uuid as remainder. -/
theorem register_id_format_cex :
    (Register envOk s0W { op := Operation.renew, path := "", secret := none, data := [] }
        (some respW)).1 = Except.ok "u1" ∧
    ("u1" : String) ≠ "" ++ "/" ++ "u1" := by
  exact ⟨rfl, by decide⟩

/-- Witness for the amended C9 at a concrete input: registering under
the clean path `aws` with uuid `u1` yields exactly `aws/u1`. -/
theorem register_id_format_witness :
    ("aws/u1" : String) = "aws" ++ "/" ++ "u1" :=
  register_id_format envOk s0W reqW (some respW) "aws/u1"
    (Register envOk s0W reqW (some respW)).2 rfl (by decide)
    ⟨by decide, by decide, by decide⟩ (by decide)

end Vault
